import Mathlib

/-!
Shallow embedding of the PK-ZigZag-Backtester C sources.

The two routines modelled here are `calculate_zigzag` (src/lib/zigzag.c) and
`enumerate_trades` (src/lib/enumerate_trades.c).  Prices (C `double`) are
modelled as rationals, the numpy `int`/`long` buffers as integers, arrays as
lists indexed with `List.getD` (the C code never reads out of bounds on the
inputs the claims quantify over).  The Python-level argument validation that
the C glue performs (shape checks) is modelled by the `_checked` wrapper.
-/

/-- State of the pre-scan ("Phase A") candidate tracking in `calculate_zigzag`:
`candidate_low` / `candidate_low_index` / `candidate_high` /
`candidate_high_index` from zigzag.c lines 55-57. -/
structure PreState where
  cl : ℚ
  cli : ℕ
  ch : ℚ
  chi : ℕ
deriving DecidableEq

/-- The first candidate update of the pre-scan loop body (zigzag.c lines
62-65): a strictly lower low moves the low candidate to index `i` (so ties
keep the earliest attaining index). -/
def stepLow (lows : List ℚ) (s : PreState) (i : ℕ) : PreState :=
  if lows.getD i 0 < s.cl then { s with cl := lows.getD i 0, cli := i } else s

/-- The second candidate update of the pre-scan loop body (zigzag.c lines
67-70): a strictly higher high moves the high candidate to index `i`. -/
def stepHigh (highs : List ℚ) (s : PreState) (i : ℕ) : PreState :=
  if highs.getD i 0 > s.ch then { s with ch := highs.getD i 0, chi := i } else s

/-- One iteration of the candidate updates at the top of the pre-scan loop
(zigzag.c lines 62-70): first the low update, then the high update, as two
consecutive statements. -/
def stepCand (highs lows : List ℚ) (s : PreState) (i : ℕ) : PreState :=
  stepHigh highs (stepLow lows s i) i

/-- Initial candidate state (zigzag.c lines 55-57): both candidates seeded from
index 0. -/
def initCand (highs lows : List ℚ) : PreState :=
  ⟨lows.getD 0 0, 0, highs.getD 0 0, 0⟩

/-- Candidate state after the updates of pre-scan iterations `1, ..., i` have
run (for `i = 0` this is the seed state). -/
def candAfter (highs lows : List ℚ) (i : ℕ) : PreState :=
  (List.range' 1 i).foldl (stepCand highs lows) (initCand highs lows)

/-- The upward Phase-A trigger condition checked at index `i`
(zigzag.c line 73), with the candidates already updated at `i`. -/
def upTrig (highs lows : List ℚ) (eps : ℚ) (i : ℕ) : Prop :=
  eps ≤ highs.getD i 0 / (candAfter highs lows i).cl - 1

/-- The downward Phase-A trigger condition checked at index `i`
(zigzag.c line 91), with the candidates already updated at `i`. -/
def downTrig (highs lows : List ℚ) (eps : ℚ) (i : ℕ) : Prop :=
  eps ≤ (candAfter highs lows i).ch / lows.getD i 0 - 1

/-- Data carried out of the pre-scan loop when it breaks: the breaking index
`i`, the `direction`, the seeded `last_extreme_index` / `last_extreme_value`,
and (for bookkeeping of the write events) the index/value pair written into
`markers_data` by the trigger branch. -/
structure BreakInfo where
  i : ℕ
  direction : ℤ
  lastExtremeIndex : ℕ
  lastExtremeValue : ℚ
  ev : ℕ × ℤ
deriving DecidableEq

/-- The pre-scan loop of zigzag.c (lines 60-107) over the remaining index list.
Returns the (possibly updated) output arrays and, if a trigger fired, the
break information; `none` models `trend_detected == 0`. -/
def preScan (highs lows : List ℚ) (eps : ℚ) :
    List ℕ → PreState → List ℤ → List ℤ → (List ℤ × List ℤ) × Option BreakInfo
  | [], _, m, t => ((m, t), none)
  | i :: rest, s, m, t =>
    let s' := stepCand highs lows s i
    if eps ≤ highs.getD i 0 / s'.cl - 1 then
      ((m.set s'.cli (-1), t.set i 1), some ⟨i, 1, s'.chi, s'.ch, (s'.cli, -1)⟩)
    else if eps ≤ s'.ch / lows.getD i 0 - 1 then
      ((m.set s'.chi 1, t.set s'.chi (-1)), some ⟨i, -1, s'.cli, s'.cl, (s'.chi, 1)⟩)
    else
      preScan highs lows eps rest s' m t

/-- Phase A of `calculate_zigzag`: the pre-scan run over indices
`1, ..., length-1` starting from the zero-initialised output arrays. -/
def phaseA (highs lows : List ℚ) (eps : ℚ) :
    (List ℤ × List ℤ) × Option BreakInfo :=
  preScan highs lows eps (List.range' 1 (highs.length - 1)) (initCand highs lows)
    (List.replicate highs.length 0) (List.replicate highs.length 0)

/-- Running state of the main loop of `calculate_zigzag` (zigzag.c lines
115-147): `direction`, `last_extreme_index`, `last_extreme_value` and the two
output arrays. -/
structure ZState where
  direction : ℤ
  lastExtremeIndex : ℕ
  lastExtremeValue : ℚ
  markers : List ℤ
  turningPoints : List ℤ
deriving DecidableEq

/-- One iteration of the main loop body at index `i` (zigzag.c lines 116-146),
returning the new state together with the marker write event (index written,
value written) when a reversal was confirmed.  Note that inside each direction
branch the reversal block and the extreme-update block are two consecutive
`if`s, not an `if`/`else`. -/
def mainStep (highs lows : List ℚ) (eps : ℚ) (st : ZState) (i : ℕ) :
    ZState × Option (ℕ × ℤ) :=
  if st.direction = 1 then
    let p :=
      if eps ≤ st.lastExtremeValue / lows.getD i 0 - 1 then
        (ZState.mk (-1) i (highs.getD i 0) (st.markers.set st.lastExtremeIndex 1)
          (st.turningPoints.set i (-1)), some (st.lastExtremeIndex, (1 : ℤ)))
      else (st, none)
    let st2 :=
      if highs.getD i 0 > p.1.lastExtremeValue then
        { p.1 with lastExtremeIndex := i, lastExtremeValue := highs.getD i 0 }
      else p.1
    (st2, p.2)
  else if st.direction = -1 then
    let p :=
      if eps ≤ highs.getD i 0 / st.lastExtremeValue - 1 then
        (ZState.mk 1 i (lows.getD i 0) (st.markers.set st.lastExtremeIndex (-1))
          (st.turningPoints.set i 1), some (st.lastExtremeIndex, (-1 : ℤ)))
      else (st, none)
    let st2 :=
      if lows.getD i 0 < p.1.lastExtremeValue then
        { p.1 with lastExtremeIndex := i, lastExtremeValue := lows.getD i 0 }
      else p.1
    (st2, p.2)
  else (st, none)

/-- The main loop of `calculate_zigzag` over the remaining index list,
collecting the marker write events in order. -/
def mainLoop (highs lows : List ℚ) (eps : ℚ) :
    List ℕ → ZState → ZState × List (ℕ × ℤ)
  | [], st => (st, [])
  | i :: rest, st =>
    let p := mainStep highs lows eps st i
    let q := mainLoop highs lows eps rest p.1
    (q.1, match p.2 with
          | some e => e :: q.2
          | none => q.2)

/-- Full run of `calculate_zigzag`: Phase A, then (if a trend was detected) the
main loop from the next index on.  Returns markers, turning points, and the
chronological list of all writes into the markers array. -/
def zigzagRun (highs lows : List ℚ) (eps : ℚ) :
    List ℤ × List ℤ × List (ℕ × ℤ) :=
  match phaseA highs lows eps with
  | ((m, t), none) => (m, t, [])
  | ((m, t), some b) =>
    let q := mainLoop highs lows eps
      (List.range' (b.i + 1) (highs.length - (b.i + 1)))
      (ZState.mk b.direction b.lastExtremeIndex b.lastExtremeValue m t)
    (q.1.markers, q.1.turningPoints, b.ev :: q.2)

/-- The observable output of `calculate_zigzag`: the pair
(high/low markers, turning points), both length-`N` integer arrays. -/
def calculate_zigzag (highs lows : List ℚ) (eps : ℚ) : List ℤ × List ℤ :=
  ((zigzagRun highs lows eps).1, (zigzagRun highs lows eps).2.1)

/-- `calculate_zigzag` together with the argument validation the C wrapper
performs (zigzag.c lines 21-30): the only rejected inputs are shape
mismatches; there is no check on `epsilon` and no zero-denominator guard. -/
def calculate_zigzag_checked (highs lows : List ℚ) (eps : ℚ) :
    Except String (List ℤ × List ℤ) :=
  if highs.length = lows.length then
    Except.ok (calculate_zigzag highs lows eps)
  else
    Except.error "Highs and lows arrays must be of the same length."

/-- Sign alternation of the nonzero entries of a dense marker array, read in
increasing index order. -/
def markersAlternate (l : List ℤ) : Prop :=
  List.Chain' (fun a b => a * b < 0) (l.filter (fun v => v != 0))

/-- A list of signs that alternates starting with the value `d`. -/
def AltFrom (d : ℤ) : List ℤ → Prop
  | [] => True
  | v :: rest => v = d ∧ AltFrom (-d) rest

/-- The scan loop of `enumerate_trades` (enumerate_trades.c lines 48-58) over
the remaining index list, with `cp` the `current_position` flag.  The exit
branch is checked before the entry branch, exactly as in the source. -/
def tradesLoop (entry exitm : List ℤ) : List ℕ → ℤ → List ℕ × List ℕ
  | [], _ => ([], [])
  | i :: rest, cp =>
    if cp = 1 ∧ exitm.getD i 0 = 1 then
      let p := tradesLoop entry exitm rest 0
      (p.1, i :: p.2)
    else if cp = 0 ∧ entry.getD i 0 = 1 then
      let p := tradesLoop entry exitm rest 1
      (i :: p.1, p.2)
    else
      tradesLoop entry exitm rest cp

/-- `enumerate_trades` (enumerate_trades.c lines 45-63): scan from
`skip_first`, then, if more entries than exits were recorded, synthesize a
final exit at index `length - 1`. -/
def enumerate_trades (entry exitm : List ℤ) (skip_first : ℕ) :
    List ℕ × List ℕ :=
  let N := entry.length
  let p := tradesLoop entry exitm (List.range' skip_first (N - skip_first)) 0
  if p.2.length < p.1.length then (p.1, p.2 ++ [N - 1]) else p


/-! Helper lemmas about the Phase-A candidate fold. -/

lemma range'_one_concat (i : ℕ) :
    List.range' 1 (i + 1) = List.range' 1 i ++ [i + 1] := by
  have h := @List.range'_concat 1 1 i
  simpa [Nat.add_comm] using h

lemma candAfter_zero (highs lows : List ℚ) :
    candAfter highs lows 0 = initCand highs lows := rfl

lemma candAfter_succ (highs lows : List ℚ) (i : ℕ) :
    candAfter highs lows (i + 1) =
      stepCand highs lows (candAfter highs lows i) (i + 1) := by
  unfold candAfter
  rw [range'_one_concat, List.foldl_append]
  rfl

lemma stepLow_ch (lows : List ℚ) (s : PreState) (i : ℕ) :
    (stepLow lows s i).ch = s.ch := by
  unfold stepLow
  split_ifs <;> rfl

lemma stepLow_chi (lows : List ℚ) (s : PreState) (i : ℕ) :
    (stepLow lows s i).chi = s.chi := by
  unfold stepLow
  split_ifs <;> rfl

lemma stepHigh_cl (highs : List ℚ) (s : PreState) (i : ℕ) :
    (stepHigh highs s i).cl = s.cl := by
  unfold stepHigh
  split_ifs <;> rfl

lemma stepHigh_cli (highs : List ℚ) (s : PreState) (i : ℕ) :
    (stepHigh highs s i).cli = s.cli := by
  unfold stepHigh
  split_ifs <;> rfl

/-- Low-candidate characterisation: after the pre-scan updates of steps 1..i,
`cl`/`cli` hold the minimum low over indices 0..i, kept at its earliest
attaining index. -/
lemma candAfter_low_char (highs lows : List ℚ) (i : ℕ) :
    (candAfter highs lows i).cli ≤ i ∧
    (candAfter highs lows i).cl = lows.getD (candAfter highs lows i).cli 0 ∧
    (∀ j, j ≤ i → (candAfter highs lows i).cl ≤ lows.getD j 0) ∧
    (∀ j, j < (candAfter highs lows i).cli →
      (candAfter highs lows i).cl < lows.getD j 0) := by
  induction i with
  | zero =>
    rw [candAfter_zero]
    unfold initCand
    refine ⟨Nat.le_refl 0, rfl, ?_, ?_⟩
    · intro j hj
      have hj0 : j = 0 := Nat.le_zero.mp hj
      subst hj0
      exact le_refl _
    · intro j hj
      exact absurd hj (Nat.not_lt_zero j)
  | succ i ih =>
    obtain ⟨hcli, hclv, hclmin, hclearly⟩ := ih
    rw [candAfter_succ]
    unfold stepCand
    rw [stepHigh_cl, stepHigh_cli]
    set s := candAfter highs lows i with hs
    unfold stepLow
    by_cases hl : lows.getD (i + 1) 0 < s.cl
    · rw [if_pos hl]
      refine ⟨Nat.le_refl (i + 1), rfl, ?_, ?_⟩
      · intro j hj
        rcases Nat.le_succ_iff_eq_or_le.mp hj with h | h
        · subst h
          exact le_refl _
        · exact le_of_lt (lt_of_lt_of_le hl (hclmin j h))
      · intro j hj
        exact lt_of_lt_of_le hl (hclmin j (Nat.lt_succ_iff.mp hj))
    · rw [if_neg hl]
      refine ⟨Nat.le_succ_of_le hcli, hclv, ?_, hclearly⟩
      intro j hj
      rcases Nat.le_succ_iff_eq_or_le.mp hj with h | h
      · subst h
        exact not_lt.mp hl
      · exact hclmin j h

/-- High-candidate characterisation: after the pre-scan updates of steps 1..i,
`ch`/`chi` hold the maximum high over indices 0..i, kept at its earliest
attaining index. -/
lemma candAfter_high_char (highs lows : List ℚ) (i : ℕ) :
    (candAfter highs lows i).chi ≤ i ∧
    (candAfter highs lows i).ch = highs.getD (candAfter highs lows i).chi 0 ∧
    (∀ j, j ≤ i → highs.getD j 0 ≤ (candAfter highs lows i).ch) ∧
    (∀ j, j < (candAfter highs lows i).chi →
      highs.getD j 0 < (candAfter highs lows i).ch) := by
  induction i with
  | zero =>
    rw [candAfter_zero]
    unfold initCand
    refine ⟨Nat.le_refl 0, rfl, ?_, ?_⟩
    · intro j hj
      have hj0 : j = 0 := Nat.le_zero.mp hj
      subst hj0
      exact le_refl _
    · intro j hj
      exact absurd hj (Nat.not_lt_zero j)
  | succ i ih =>
    obtain ⟨hchi, hchv, hchmax, hchearly⟩ := ih
    rw [candAfter_succ]
    unfold stepCand
    have hch : (stepLow lows (candAfter highs lows i) (i + 1)).ch =
        (candAfter highs lows i).ch := stepLow_ch lows _ (i + 1)
    have hchi2 : (stepLow lows (candAfter highs lows i) (i + 1)).chi =
        (candAfter highs lows i).chi := stepLow_chi lows _ (i + 1)
    set s := candAfter highs lows i with hs
    set s1 := stepLow lows s (i + 1) with hs1
    unfold stepHigh
    rw [hch]
    by_cases hh : highs.getD (i + 1) 0 > s.ch
    · rw [if_pos hh]
      refine ⟨Nat.le_refl (i + 1), rfl, ?_, ?_⟩
      · intro j hj
        rcases Nat.le_succ_iff_eq_or_le.mp hj with h | h
        · subst h
          exact le_refl _
        · exact le_of_lt (lt_of_le_of_lt (hchmax j h) hh)
      · intro j hj
        exact lt_of_le_of_lt (hchmax j (Nat.lt_succ_iff.mp hj)) hh
    · rw [if_neg hh]
      rw [hch, hchi2]
      refine ⟨Nat.le_succ_of_le hchi, hchv, ?_, hchearly⟩
      intro j hj
      rcases Nat.le_succ_iff_eq_or_le.mp hj with h | h
      · subst h
        exact not_lt.mp hh
      · exact hchmax j h

/-- Uniqueness: any index with the earliest-minimum-low property over 0..i is
exactly the fold's low candidate. -/
lemma candAfter_low_eq (highs lows : List ℚ) (i cli : ℕ)
    (h1 : cli ≤ i)
    (h2 : ∀ j ∈ List.range (i + 1), lows.getD cli 0 ≤ lows.getD j 0)
    (h3 : ∀ j ∈ List.range cli, lows.getD cli 0 < lows.getD j 0) :
    (candAfter highs lows i).cli = cli ∧
    (candAfter highs lows i).cl = lows.getD cli 0 := by
  obtain ⟨hsli, hslv, hslmin, hslearly⟩ := candAfter_low_char highs lows i
  have ha : (candAfter highs lows i).cl ≤ lows.getD cli 0 :=
    hslmin cli h1
  have hb : lows.getD cli 0 ≤ lows.getD (candAfter highs lows i).cli 0 :=
    h2 _ (List.mem_range.mpr (Nat.lt_succ_of_le hsli))
  have hv : (candAfter highs lows i).cl = lows.getD cli 0 :=
    le_antisymm ha (hslv ▸ hb)
  refine ⟨?_, hv⟩
  rcases lt_trichotomy (candAfter highs lows i).cli cli with h | h | h
  · exfalso
    have := h3 _ (List.mem_range.mpr h)
    rw [← hslv, hv] at this
    exact lt_irrefl _ this
  · exact h
  · exfalso
    have := hslearly cli h
    rw [hv] at this
    exact lt_irrefl _ this

/-- Uniqueness: any index with the earliest-maximum-high property over 0..i is
exactly the fold's high candidate. -/
lemma candAfter_high_eq (highs lows : List ℚ) (i chi : ℕ)
    (h1 : chi ≤ i)
    (h2 : ∀ j ∈ List.range (i + 1), highs.getD j 0 ≤ highs.getD chi 0)
    (h3 : ∀ j ∈ List.range chi, highs.getD j 0 < highs.getD chi 0) :
    (candAfter highs lows i).chi = chi ∧
    (candAfter highs lows i).ch = highs.getD chi 0 := by
  obtain ⟨hshi, hshv, hshmax, hshearly⟩ := candAfter_high_char highs lows i
  have ha : highs.getD chi 0 ≤ (candAfter highs lows i).ch :=
    hshmax chi h1
  have hb : highs.getD (candAfter highs lows i).chi 0 ≤ highs.getD chi 0 :=
    h2 _ (List.mem_range.mpr (Nat.lt_succ_of_le hshi))
  have hv : (candAfter highs lows i).ch = highs.getD chi 0 :=
    le_antisymm (hshv ▸ hb) ha
  refine ⟨?_, hv⟩
  rcases lt_trichotomy (candAfter highs lows i).chi chi with h | h | h
  · exfalso
    have := h3 _ (List.mem_range.mpr h)
    rw [← hshv, hv] at this
    exact lt_irrefl _ this
  · exact h
  · exfalso
    have := hshearly chi h
    rw [hv] at this
    exact lt_irrefl _ this

/-- Unfolding equation for the pre-scan loop body. -/
lemma preScan_cons (highs lows : List ℚ) (eps : ℚ) (i : ℕ) (rest : List ℕ)
    (s : PreState) (m t : List ℤ) :
    preScan highs lows eps (i :: rest) s m t =
      if eps ≤ highs.getD i 0 / (stepCand highs lows s i).cl - 1 then
        ((m.set (stepCand highs lows s i).cli (-1), t.set i 1),
         some ⟨i, 1, (stepCand highs lows s i).chi, (stepCand highs lows s i).ch,
               ((stepCand highs lows s i).cli, -1)⟩)
      else if eps ≤ (stepCand highs lows s i).ch / lows.getD i 0 - 1 then
        ((m.set (stepCand highs lows s i).chi 1, t.set (stepCand highs lows s i).chi (-1)),
         some ⟨i, -1, (stepCand highs lows s i).cli, (stepCand highs lows s i).cl,
               ((stepCand highs lows s i).chi, 1)⟩)
      else preScan highs lows eps rest (stepCand highs lows s i) m t := rfl

/-- If no trigger condition holds on any of the next `n` indices, the pre-scan
runs off the end without writing anything and reports no detected trend. -/
lemma preScan_none (highs lows : List ℚ) (eps : ℚ) (m t : List ℤ) :
    ∀ n i : ℕ,
      (∀ j, i < j → j ≤ i + n → ¬ upTrig highs lows eps j ∧ ¬ downTrig highs lows eps j) →
      preScan highs lows eps (List.range' (i + 1) n) (candAfter highs lows i) m t =
        ((m, t), none) := by
  intro n
  induction n with
  | zero =>
    intro i _
    rfl
  | succ n ih =>
    intro i h
    rw [List.range'_succ, preScan_cons, ← candAfter_succ]
    have hj := h (i + 1) (by omega) (by omega)
    simp only [upTrig, downTrig] at hj
    rw [if_neg hj.1, if_neg hj.2]
    exact ih (i + 1) (fun j h1 h2 => h j (by omega) (by omega))

/-- If the first trigger to fire is the upward one at index `k`, the pre-scan
breaks there, writes `-1` into markers at the low-candidate index and `1` into
turning points at the triggering index `k`, and seeds the tracked extreme from
the high candidate. -/
lemma preScan_break_up (highs lows : List ℚ) (eps : ℚ) (m t : List ℤ) (k : ℕ) :
    ∀ n i : ℕ, i < k → k ≤ i + n →
      (∀ j, i < j → j < k → ¬ upTrig highs lows eps j ∧ ¬ downTrig highs lows eps j) →
      upTrig highs lows eps k →
      preScan highs lows eps (List.range' (i + 1) n) (candAfter highs lows i) m t =
        ((m.set (candAfter highs lows k).cli (-1), t.set k 1),
         some ⟨k, 1, (candAfter highs lows k).chi, (candAfter highs lows k).ch,
               ((candAfter highs lows k).cli, -1)⟩) := by
  intro n
  induction n with
  | zero =>
    intro i h1 h2 _ _
    omega
  | succ n ih =>
    intro i h1 h2 hfirst hup
    rw [List.range'_succ, preScan_cons, ← candAfter_succ]
    by_cases hcase : k = i + 1
    · subst hcase
      simp only [upTrig] at hup
      rw [if_pos hup]
    · have hni := hfirst (i + 1) (by omega) (by omega)
      simp only [upTrig, downTrig] at hni
      rw [if_neg hni.1, if_neg hni.2]
      exact ih (i + 1) (by omega) (by omega) (fun j ha hb => hfirst j (by omega) hb) hup

/-- If the first trigger to fire is the downward one at index `k` (and the
upward trigger does not hold at `k` itself), the pre-scan breaks there,
writes `1` into markers and `-1` into turning points, both at the
high-candidate index, and seeds the tracked extreme from the low candidate. -/
lemma preScan_break_down (highs lows : List ℚ) (eps : ℚ) (m t : List ℤ) (k : ℕ) :
    ∀ n i : ℕ, i < k → k ≤ i + n →
      (∀ j, i < j → j < k → ¬ upTrig highs lows eps j ∧ ¬ downTrig highs lows eps j) →
      ¬ upTrig highs lows eps k →
      downTrig highs lows eps k →
      preScan highs lows eps (List.range' (i + 1) n) (candAfter highs lows i) m t =
        ((m.set (candAfter highs lows k).chi 1, t.set (candAfter highs lows k).chi (-1)),
         some ⟨k, -1, (candAfter highs lows k).cli, (candAfter highs lows k).cl,
               ((candAfter highs lows k).chi, 1)⟩) := by
  intro n
  induction n with
  | zero =>
    intro i h1 h2 _ _ _
    omega
  | succ n ih =>
    intro i h1 h2 hfirst hnup hdown
    rw [List.range'_succ, preScan_cons, ← candAfter_succ]
    by_cases hcase : k = i + 1
    · subst hcase
      simp only [upTrig] at hnup
      simp only [downTrig] at hdown
      rw [if_neg hnup, if_pos hdown]
    · have hni := hfirst (i + 1) (by omega) (by omega)
      simp only [upTrig, downTrig] at hni
      rw [if_neg hni.1, if_neg hni.2]
      exact ih (i + 1) (by omega) (by omega) (fun j ha hb => hfirst j (by omega) hb) hnup hdown

/-- `phaseA` is the pre-scan started at index 0's seed state. -/
lemma phaseA_def (highs lows : List ℚ) (eps : ℚ) :
    phaseA highs lows eps =
      preScan highs lows eps (List.range' (0 + 1) (highs.length - 1))
        (candAfter highs lows 0)
        (List.replicate highs.length 0) (List.replicate highs.length 0) := rfl

lemma getD_set_self (l : List ℤ) (i : ℕ) (a : ℤ) (h : i < l.length) :
    (l.set i a).getD i 0 = a := by
  rw [List.getD_eq_getElem?_getD, List.getElem?_set_self h]
  rfl

/-- Claim C1: if, scanning from index 1, the first Phase-A trigger to fire is
the upward one at index `k` (with `cli` the index of the minimum low over
0..k, earliest on ties, and `chi` the index of the maximum high over 0..k,
earliest on ties), then `calculate_zigzag` writes `-1` into markers at `cli`
and `1` into turning points at the triggering index `k`, and the tracked
extreme entering Phase B is the high candidate value at index `chi`. -/
theorem zigzag_phaseA_up_trigger
    (highs lows : List ℚ) (eps : ℚ) (k cli chi : ℕ)
    (hlen : highs.length = lows.length) (heps : 0 < eps)
    (hk1 : 1 ≤ k) (hkN : k < highs.length)
    (hcli : cli ≤ k)
    (hclimin : ∀ j ∈ List.range (k + 1), lows.getD cli 0 ≤ lows.getD j 0)
    (hcliearly : ∀ j ∈ List.range cli, lows.getD cli 0 < lows.getD j 0)
    (hchi : chi ≤ k)
    (hchimax : ∀ j ∈ List.range (k + 1), highs.getD j 0 ≤ highs.getD chi 0)
    (hchiearly : ∀ j ∈ List.range chi, highs.getD j 0 < highs.getD chi 0)
    (hfirst : ∀ j ∈ List.range k, 1 ≤ j →
      ¬ upTrig highs lows eps j ∧ ¬ downTrig highs lows eps j)
    (htrig : upTrig highs lows eps k) :
    phaseA highs lows eps =
      (((List.replicate highs.length 0).set cli (-1),
        (List.replicate highs.length 0).set k 1),
       some ⟨k, 1, chi, highs.getD chi 0, (cli, -1)⟩) ∧
    (phaseA highs lows eps).1.1.getD cli 0 = -1 ∧
    (phaseA highs lows eps).1.2.getD k 0 = 1 := by
  obtain ⟨hle1, hle2⟩ := candAfter_low_eq highs lows k cli hcli hclimin hcliearly
  obtain ⟨hhe1, hhe2⟩ := candAfter_high_eq highs lows k chi hchi hchimax hchiearly
  have hmain : phaseA highs lows eps =
      (((List.replicate highs.length 0).set cli (-1),
        (List.replicate highs.length 0).set k 1),
       some ⟨k, 1, chi, highs.getD chi 0, (cli, -1)⟩) := by
    rw [phaseA_def]
    rw [preScan_break_up highs lows eps _ _ k (highs.length - 1) 0 (by omega) (by omega)
      (fun j ha hb => hfirst j (List.mem_range.mpr hb) ha) htrig]
    rw [hle1, hhe1, hhe2]
  refine ⟨hmain, ?_, ?_⟩
  · rw [hmain]
    exact getD_set_self _ cli (-1) (by rw [List.length_replicate]; omega)
  · rw [hmain]
    exact getD_set_self _ k 1 (by rw [List.length_replicate]; omega)

/-- Witness for C1 on the spec's Scenario 3 input: the up trigger fires at
index 3, markers gets `-1` at index 0 (the earliest low-candidate index) and
turning points gets `1` at index 3, visible in the final output. -/
theorem zigzag_phaseA_up_trigger_witness :
    phaseA [100, 100, 100, 160, 100] [100, 100, 100, 100, 100] (1 / 2) =
      ((([-1, 0, 0, 0, 0] : List ℤ), ([0, 0, 0, 1, 0] : List ℤ)),
       some ⟨3, 1, 3, 160, (0, -1)⟩) ∧
    (calculate_zigzag [100, 100, 100, 160, 100] [100, 100, 100, 100, 100] (1 / 2)).1.getD 0 0 = -1 ∧
    (calculate_zigzag [100, 100, 100, 160, 100] [100, 100, 100, 100, 100] (1 / 2)).2.getD 3 0 = 1 := by
  have h := zigzag_phaseA_up_trigger [100, 100, 100, 160, 100] [100, 100, 100, 100, 100]
    (1 / 2) 3 0 3 rfl (by norm_num) (by decide) (by decide) (by decide) (by decide)
    (by decide) (by decide) (by decide) (by decide)
    (by
      intro j hj h1
      simp only [List.mem_range] at hj
      interval_cases j <;>
        norm_num [upTrig, downTrig, candAfter, initCand, stepCand, stepLow, stepHigh,
          List.range'])
    (by norm_num [upTrig, candAfter, initCand, stepCand, stepLow, stepHigh, List.range'])
  refine ⟨?_, ?_, ?_⟩
  · rw [h.1]
    decide
  · norm_num [calculate_zigzag, zigzagRun, phaseA_def, preScan, candAfter_zero, initCand,
      stepCand, stepLow, stepHigh, List.range', List.replicate, List.set, mainLoop, mainStep]
  · norm_num [calculate_zigzag, zigzagRun, phaseA_def, preScan, candAfter_zero, initCand,
      stepCand, stepLow, stepHigh, List.range', List.replicate, List.set, mainLoop, mainStep]

/-- Claim C2: if the first Phase-A trigger to fire is the downward one at
index `k` (no earlier trigger and no upward trigger at `k` itself), then
`calculate_zigzag` writes `1` into markers and `-1` into turning points, both
at the high-candidate (extreme) index `chi` rather than at the triggering
index `k`, and the tracked extreme entering Phase B is the low candidate
value at index `cli`. -/
theorem zigzag_phaseA_down_trigger
    (highs lows : List ℚ) (eps : ℚ) (k cli chi : ℕ)
    (hlen : highs.length = lows.length) (heps : 0 < eps)
    (hk1 : 1 ≤ k) (hkN : k < highs.length)
    (hcli : cli ≤ k)
    (hclimin : ∀ j ∈ List.range (k + 1), lows.getD cli 0 ≤ lows.getD j 0)
    (hcliearly : ∀ j ∈ List.range cli, lows.getD cli 0 < lows.getD j 0)
    (hchi : chi ≤ k)
    (hchimax : ∀ j ∈ List.range (k + 1), highs.getD j 0 ≤ highs.getD chi 0)
    (hchiearly : ∀ j ∈ List.range chi, highs.getD j 0 < highs.getD chi 0)
    (hfirst : ∀ j ∈ List.range k, 1 ≤ j →
      ¬ upTrig highs lows eps j ∧ ¬ downTrig highs lows eps j)
    (hnup : ¬ upTrig highs lows eps k)
    (htrig : downTrig highs lows eps k) :
    phaseA highs lows eps =
      (((List.replicate highs.length 0).set chi 1,
        (List.replicate highs.length 0).set chi (-1)),
       some ⟨k, -1, cli, lows.getD cli 0, (chi, 1)⟩) ∧
    (phaseA highs lows eps).1.1.getD chi 0 = 1 ∧
    (phaseA highs lows eps).1.2.getD chi 0 = -1 := by
  obtain ⟨hle1, hle2⟩ := candAfter_low_eq highs lows k cli hcli hclimin hcliearly
  obtain ⟨hhe1, hhe2⟩ := candAfter_high_eq highs lows k chi hchi hchimax hchiearly
  have hmain : phaseA highs lows eps =
      (((List.replicate highs.length 0).set chi 1,
        (List.replicate highs.length 0).set chi (-1)),
       some ⟨k, -1, cli, lows.getD cli 0, (chi, 1)⟩) := by
    rw [phaseA_def]
    rw [preScan_break_down highs lows eps _ _ k (highs.length - 1) 0 (by omega) (by omega)
      (fun j ha hb => hfirst j (List.mem_range.mpr hb) ha) hnup htrig]
    rw [hle1, hle2, hhe1]
  refine ⟨hmain, ?_, ?_⟩
  · rw [hmain]
    exact getD_set_self _ chi 1 (by rw [List.length_replicate]; omega)
  · rw [hmain]
    exact getD_set_self _ chi (-1) (by rw [List.length_replicate]; omega)

/-- Witness for C2: on highs `[160, 100]`, lows `[160, 100]` with epsilon 1/2
the downward trigger fires at index 1; both writes land at the peak index 0
and the tracked extreme entering Phase B is the low candidate 100 at index
1. -/
theorem zigzag_phaseA_down_trigger_witness :
    phaseA [160, 100] [160, 100] (1 / 2) =
      ((([1, 0] : List ℤ), ([-1, 0] : List ℤ)), some ⟨1, -1, 1, 100, (0, 1)⟩) ∧
    (calculate_zigzag [160, 100] [160, 100] (1 / 2)).1.getD 0 0 = 1 ∧
    (calculate_zigzag [160, 100] [160, 100] (1 / 2)).2.getD 0 0 = -1 := by
  have h := zigzag_phaseA_down_trigger [160, 100] [160, 100] (1 / 2) 1 1 0 rfl
    (by norm_num) (by decide) (by decide) (by decide) (by decide) (by decide)
    (by decide) (by decide) (by decide)
    (by
      intro j hj h1
      simp only [List.mem_range] at hj
      omega)
    (by norm_num [upTrig, candAfter, initCand, stepCand, stepLow, stepHigh, List.range'])
    (by norm_num [downTrig, candAfter, initCand, stepCand, stepLow, stepHigh, List.range'])
  refine ⟨?_, ?_, ?_⟩
  · rw [h.1]
    decide
  · norm_num [calculate_zigzag, zigzagRun, phaseA_def, preScan, candAfter_zero, initCand,
      stepCand, stepLow, stepHigh, List.range', List.replicate, List.set, mainLoop, mainStep]
  · norm_num [calculate_zigzag, zigzagRun, phaseA_def, preScan, candAfter_zero, initCand,
      stepCand, stepLow, stepHigh, List.range', List.replicate, List.set, mainLoop, mainStep]

lemma calculate_zigzag_of_phaseA_none (highs lows : List ℚ) (eps : ℚ) (m t : List ℤ)
    (h : phaseA highs lows eps = ((m, t), none)) :
    calculate_zigzag highs lows eps = (m, t) := by
  simp [calculate_zigzag, zigzagRun, h]

lemma getD_replicate_of_lt (c : ℚ) (n j : ℕ) (h : j < n) :
    (List.replicate n c).getD j 0 = c := by
  rw [List.getD_eq_getElem?_getD, List.getElem?_replicate]
  simp [h]

lemma candAfter_const (c : ℚ) (n : ℕ) :
    ∀ i, i < n →
      candAfter (List.replicate n c) (List.replicate n c) i = ⟨c, 0, c, 0⟩ := by
  intro i
  induction i with
  | zero =>
    intro h
    rw [candAfter_zero]
    unfold initCand
    rw [getD_replicate_of_lt c n 0 h]
  | succ i ih =>
    intro h
    rw [candAfter_succ, ih (by omega)]
    unfold stepCand stepLow stepHigh
    rw [getD_replicate_of_lt c n (i + 1) h]
    rw [if_neg (lt_irrefl c)]
    rw [if_neg (lt_irrefl c)]

/-- Claim C5: if no index satisfies either Phase-A trigger condition, both
outputs stay all-zero; in particular this holds for every length-1 input and
for every constant positive series. -/
theorem zigzag_no_trigger_all_zero (highs lows : List ℚ) (eps : ℚ) :
    ((∀ j ∈ List.range highs.length, 1 ≤ j →
        ¬ upTrig highs lows eps j ∧ ¬ downTrig highs lows eps j) →
      calculate_zigzag highs lows eps =
        (List.replicate highs.length 0, List.replicate highs.length 0)) ∧
    (highs.length = 1 → calculate_zigzag highs lows eps = ([0], [0])) ∧
    (∀ (c : ℚ) (n : ℕ), 0 < c → 0 < eps →
      highs = List.replicate n c → lows = List.replicate n c →
      calculate_zigzag highs lows eps =
        (List.replicate n 0, List.replicate n 0)) := by
  have main : (∀ j ∈ List.range highs.length, 1 ≤ j →
      ¬ upTrig highs lows eps j ∧ ¬ downTrig highs lows eps j) →
      calculate_zigzag highs lows eps =
        (List.replicate highs.length 0, List.replicate highs.length 0) := by
    intro h
    refine calculate_zigzag_of_phaseA_none highs lows eps _ _ ?_
    rw [phaseA_def]
    exact preScan_none highs lows eps _ _ (highs.length - 1) 0
      (fun j h1 h2 => h j (List.mem_range.mpr (by omega)) (by omega))
  refine ⟨main, ?_, ?_⟩
  · intro h1
    have hz : calculate_zigzag highs lows eps =
        (List.replicate highs.length 0, List.replicate highs.length 0) := by
      refine main ?_
      intro j hj hj1
      rw [List.mem_range, h1] at hj
      omega
    rw [hz, h1]
    rfl
  · intro c n hc heps hh hl
    subst hh
    subst hl
    have hz := main ?_
    · rw [hz, List.length_replicate]
    · intro j hj hj1
      rw [List.mem_range, List.length_replicate] at hj
      unfold upTrig downTrig
      rw [candAfter_const c n j hj]
      rw [getD_replicate_of_lt c n j hj]
      constructor
      · intro hle
        rw [div_self (ne_of_gt hc)] at hle
        norm_num at hle
        exact absurd (lt_of_lt_of_le heps hle) (lt_irrefl 0)
      · intro hle
        rw [div_self (ne_of_gt hc)] at hle
        norm_num at hle
        exact absurd (lt_of_lt_of_le heps hle) (lt_irrefl 0)

/-- Witness for C5 on a constant (flat) series of length 2: both outputs are
all-zero because no trigger can ever fire. -/
theorem zigzag_no_trigger_all_zero_witness :
    calculate_zigzag [100, 100] [100, 100] (1 / 2) =
      (List.replicate 2 0, List.replicate 2 0) := by
  refine (zigzag_no_trigger_all_zero [100, 100] [100, 100] (1 / 2)).1 ?_
  intro j hj h1
  simp only [List.mem_range, List.length_cons, List.length_nil] at hj
  interval_cases j
  constructor <;>
    norm_num [upTrig, downTrig, candAfter, initCand, stepCand, stepLow, stepHigh,
      List.range']

lemma set_valid (m : List ℤ) (idx : ℕ) (a : ℤ)
    (hm : ∀ v ∈ m, v = -1 ∨ v = 0 ∨ v = 1) (ha : a = -1 ∨ a = 0 ∨ a = 1) :
    ∀ v ∈ m.set idx a, v = -1 ∨ v = 0 ∨ v = 1 := by
  intro v hv
  rcases List.mem_or_eq_of_mem_set hv with h | h
  · exact hm v h
  · rw [h]
    exact ha

/-- The pre-scan preserves the lengths of both output arrays and keeps all of
their entries in -1/0/1. -/
lemma preScan_shape (highs lows : List ℚ) (eps : ℚ) :
    ∀ (l : List ℕ) (s : PreState) (m t : List ℤ),
      ((preScan highs lows eps l s m t).1.1.length = m.length) ∧
      ((preScan highs lows eps l s m t).1.2.length = t.length) ∧
      ((∀ v ∈ m, v = -1 ∨ v = 0 ∨ v = 1) →
        ∀ v ∈ (preScan highs lows eps l s m t).1.1, v = -1 ∨ v = 0 ∨ v = 1) ∧
      ((∀ v ∈ t, v = -1 ∨ v = 0 ∨ v = 1) →
        ∀ v ∈ (preScan highs lows eps l s m t).1.2, v = -1 ∨ v = 0 ∨ v = 1) := by
  intro l
  induction l with
  | nil =>
    intro s m t
    exact ⟨rfl, rfl, fun h => h, fun h => h⟩
  | cons i rest ih =>
    intro s m t
    rw [preScan_cons]
    split_ifs with h1 h2
    · refine ⟨List.length_set .., List.length_set .., ?_, ?_⟩
      · intro hm
        exact set_valid m _ _ hm (by norm_num)
      · intro ht
        exact set_valid t _ _ ht (by norm_num)
    · refine ⟨List.length_set .., List.length_set .., ?_, ?_⟩
      · intro hm
        exact set_valid m _ _ hm (by norm_num)
      · intro ht
        exact set_valid t _ _ ht (by norm_num)
    · exact ih (stepCand highs lows s i) m t

/-- One main-loop step preserves the lengths of both arrays and keeps all of
their entries in -1/0/1. -/
lemma mainStep_shape (highs lows : List ℚ) (eps : ℚ) (st : ZState) (i : ℕ) :
    ((mainStep highs lows eps st i).1.markers.length = st.markers.length) ∧
    ((mainStep highs lows eps st i).1.turningPoints.length = st.turningPoints.length) ∧
    ((∀ v ∈ st.markers, v = -1 ∨ v = 0 ∨ v = 1) →
      ∀ v ∈ (mainStep highs lows eps st i).1.markers, v = -1 ∨ v = 0 ∨ v = 1) ∧
    ((∀ v ∈ st.turningPoints, v = -1 ∨ v = 0 ∨ v = 1) →
      ∀ v ∈ (mainStep highs lows eps st i).1.turningPoints, v = -1 ∨ v = 0 ∨ v = 1) := by
  simp only [mainStep]
  split_ifs <;>
    refine ⟨?_, ?_, fun hm => ?_, fun ht => ?_⟩ <;>
    first
      | rfl
      | exact List.length_set ..
      | exact hm
      | exact ht
      | exact set_valid _ _ _ hm (by norm_num)
      | exact set_valid _ _ _ ht (by norm_num)

/-- The main loop preserves the lengths of both arrays and keeps all of their
entries in -1/0/1. -/
lemma mainLoop_shape (highs lows : List ℚ) (eps : ℚ) :
    ∀ (l : List ℕ) (st : ZState),
      ((mainLoop highs lows eps l st).1.markers.length = st.markers.length) ∧
      ((mainLoop highs lows eps l st).1.turningPoints.length = st.turningPoints.length) ∧
      ((∀ v ∈ st.markers, v = -1 ∨ v = 0 ∨ v = 1) →
        ∀ v ∈ (mainLoop highs lows eps l st).1.markers, v = -1 ∨ v = 0 ∨ v = 1) ∧
      ((∀ v ∈ st.turningPoints, v = -1 ∨ v = 0 ∨ v = 1) →
        ∀ v ∈ (mainLoop highs lows eps l st).1.turningPoints, v = -1 ∨ v = 0 ∨ v = 1) := by
  intro l
  induction l with
  | nil =>
    intro st
    exact ⟨rfl, rfl, fun h => h, fun h => h⟩
  | cons i rest ih =>
    intro st
    obtain ⟨hs1, hs2, hs3, hs4⟩ := mainStep_shape highs lows eps st i
    obtain ⟨hl1, hl2, hl3, hl4⟩ := ih (mainStep highs lows eps st i).1
    refine ⟨hl1.trans hs1, hl2.trans hs2, fun hm => hl3 (hs3 hm), fun ht => hl4 (hs4 ht)⟩

/-- Claim C6: for every input, `calculate_zigzag` returns two arrays of the
same length as the highs series, with every entry in -1/0/1. -/
theorem zigzag_output_shape (highs lows : List ℚ) (eps : ℚ) :
    (calculate_zigzag highs lows eps).1.length = highs.length ∧
    (calculate_zigzag highs lows eps).2.length = highs.length ∧
    (∀ v ∈ (calculate_zigzag highs lows eps).1, v = -1 ∨ v = 0 ∨ v = 1) ∧
    (∀ v ∈ (calculate_zigzag highs lows eps).2, v = -1 ∨ v = 0 ∨ v = 1) := by
  have h0 : ∀ v ∈ List.replicate highs.length (0 : ℤ), v = -1 ∨ v = 0 ∨ v = 1 := by
    intro v hv
    rw [List.eq_of_mem_replicate hv]
    norm_num
  have hps := preScan_shape highs lows eps (List.range' (0 + 1) (highs.length - 1))
    (candAfter highs lows 0)
    (List.replicate highs.length 0) (List.replicate highs.length 0)
  rw [← phaseA_def] at hps
  cases hp : phaseA highs lows eps with
  | mk mt ob =>
    obtain ⟨m, t⟩ := mt
    rw [hp] at hps
    obtain ⟨hm1, ht1, hm2, ht2⟩ := hps
    rw [List.length_replicate] at hm1 ht1
    cases ob with
    | none =>
      have hz := calculate_zigzag_of_phaseA_none highs lows eps m t hp
      rw [hz]
      exact ⟨hm1, ht1, hm2 h0, ht2 h0⟩
    | some b =>
      have hml := mainLoop_shape highs lows eps
        (List.range' (b.i + 1) (highs.length - (b.i + 1)))
        (ZState.mk b.direction b.lastExtremeIndex b.lastExtremeValue m t)
      have hz : calculate_zigzag highs lows eps =
          ((mainLoop highs lows eps (List.range' (b.i + 1) (highs.length - (b.i + 1)))
            (ZState.mk b.direction b.lastExtremeIndex b.lastExtremeValue m t)).1.markers,
           (mainLoop highs lows eps (List.range' (b.i + 1) (highs.length - (b.i + 1)))
            (ZState.mk b.direction b.lastExtremeIndex b.lastExtremeValue m t)).1.turningPoints) := by
        simp [calculate_zigzag, zigzagRun, hp]
      rw [hz]
      obtain ⟨ha, hb, hc, hd⟩ := hml
      exact ⟨ha.trans hm1, hb.trans ht1, hc (hm2 h0), hd (ht2 h0)⟩

/-- Witness for C6 at a concrete input: lengths are 2 and the value 1 that
occurs in markers is among -1/0/1. -/
theorem zigzag_output_shape_witness :
    (calculate_zigzag [160, 100] [160, 100] (1 / 2)).1.length = 2 ∧
    ((1 : ℤ) ∈ (calculate_zigzag [160, 100] [160, 100] (1 / 2)).1 ∧
      ((1 : ℤ) = -1 ∨ (1 : ℤ) = 0 ∨ (1 : ℤ) = 1)) := by
  refine ⟨(zigzag_output_shape [160, 100] [160, 100] (1 / 2)).1, ?_, ?_⟩
  · norm_num [calculate_zigzag, zigzagRun, phaseA_def, preScan, candAfter_zero, initCand,
      stepCand, stepLow, stepHigh, List.range', List.replicate, List.set, mainLoop, mainStep]
  · exact (zigzag_output_shape [160, 100] [160, 100] (1 / 2)).2.2.1 1
      (by norm_num [calculate_zigzag, zigzagRun, phaseA_def, preScan, candAfter_zero, initCand,
        stepCand, stepLow, stepHigh, List.range', List.replicate, List.set, mainLoop, mainStep])

/-- Amended C3: on a Phase-B reversal at index `i` (in either direction), the
tracked extreme is reset to index `i` itself, with its value re-read from the
series of the old trend at index `i` (`highs[i]` when flipping from uptrend to
downtrend, `lows[i]` when flipping from downtrend to uptrend) — not from the
old extreme index. -/
theorem zigzag_reset_reads_new_index (highs lows : List ℚ) (eps : ℚ)
    (st : ZState) (i : ℕ) :
    (st.direction = 1 → eps ≤ st.lastExtremeValue / lows.getD i 0 - 1 →
      (mainStep highs lows eps st i).1.lastExtremeIndex = i ∧
      (mainStep highs lows eps st i).1.lastExtremeValue = highs.getD i 0) ∧
    (st.direction = -1 → eps ≤ highs.getD i 0 / st.lastExtremeValue - 1 →
      (mainStep highs lows eps st i).1.lastExtremeIndex = i ∧
      (mainStep highs lows eps st i).1.lastExtremeValue = lows.getD i 0) := by
  constructor
  · intro hd hf
    simp only [mainStep, hd, if_true]
    rw [if_pos hf]
    dsimp only
    rw [if_neg (lt_irrefl (highs.getD i 0))]
    exact ⟨rfl, rfl⟩
  · intro hd hf
    simp only [mainStep, hd, if_false, if_true]
    rw [if_pos hf]
    dsimp only
    rw [if_neg (lt_irrefl (lows.getD i 0))]
    exact ⟨rfl, rfl⟩

/-- Counterexample to C3 as stated: on highs `[100, 160, 100, 160]`, lows all
100 with epsilon 1/2, Phase A breaks at index 1 into an uptrend whose tracked
extreme is 160 at index 1, and the reversal confirmed at index 2 resets the
tracked extreme value to `highs[2] = 100` (index 2's own value under the highs
series), which differs from the highs value 160 at the old extreme index 1. -/
theorem zigzag_reset_reads_old_index_cex :
    phaseA [100, 160, 100, 160] [100, 100, 100, 100] (1 / 2) =
      ((([-1, 0, 0, 0] : List ℤ), ([0, 1, 0, 0] : List ℤ)),
       some ⟨1, 1, 1, 160, (0, -1)⟩) ∧
    ((1 : ℚ) / 2 ≤ (160 : ℚ) / ([100, 100, 100, 100] : List ℚ).getD 2 0 - 1) ∧
    (mainStep [100, 160, 100, 160] [100, 100, 100, 100] (1 / 2)
        (ZState.mk 1 1 160 [-1, 0, 0, 0] [0, 1, 0, 0]) 2).1.lastExtremeValue = 100 ∧
    (mainStep [100, 160, 100, 160] [100, 100, 100, 100] (1 / 2)
        (ZState.mk 1 1 160 [-1, 0, 0, 0] [0, 1, 0, 0]) 2).1.lastExtremeValue ≠
      ([100, 160, 100, 160] : List ℚ).getD 1 0 := by
  refine ⟨?_, ?_, ?_, ?_⟩
  · norm_num [phaseA_def, preScan, candAfter_zero, initCand, stepCand, stepLow, stepHigh,
      List.range', List.replicate, List.set]
  · norm_num
  · norm_num [mainStep, List.set]
  · norm_num [mainStep, List.set]

/-- Witness for the amended C3 in both directions, on concrete reversing
states. -/
theorem zigzag_reset_reads_new_index_witness :
    ((ZState.mk 1 1 160 [-1, 0, 0, 0] [0, 1, 0, 0]).direction = 1 ∧
     (1 : ℚ) / 2 ≤ (ZState.mk 1 1 160 ([-1, 0, 0, 0] : List ℤ)
        ([0, 1, 0, 0] : List ℤ)).lastExtremeValue /
          ([100, 100, 100, 100] : List ℚ).getD 2 0 - 1 ∧
     (mainStep [100, 160, 100, 160] [100, 100, 100, 100] (1 / 2)
        (ZState.mk 1 1 160 [-1, 0, 0, 0] [0, 1, 0, 0]) 2).1.lastExtremeIndex = 2 ∧
     (mainStep [100, 160, 100, 160] [100, 100, 100, 100] (1 / 2)
        (ZState.mk 1 1 160 [-1, 0, 0, 0] [0, 1, 0, 0]) 2).1.lastExtremeValue =
       ([100, 160, 100, 160] : List ℚ).getD 2 0) ∧
    ((ZState.mk (-1) 1 100 [1, 0, 0, 0] [-1, 0, 0, 0]).direction = -1 ∧
     (1 : ℚ) / 2 ≤ ([100, 100, 160, 100] : List ℚ).getD 2 0 /
        (ZState.mk (-1) 1 100 ([1, 0, 0, 0] : List ℤ)
          ([-1, 0, 0, 0] : List ℤ)).lastExtremeValue - 1 ∧
     (mainStep [100, 100, 160, 100] [100, 100, 90, 100] (1 / 2)
        (ZState.mk (-1) 1 100 [1, 0, 0, 0] [-1, 0, 0, 0]) 2).1.lastExtremeIndex = 2 ∧
     (mainStep [100, 100, 160, 100] [100, 100, 90, 100] (1 / 2)
        (ZState.mk (-1) 1 100 [1, 0, 0, 0] [-1, 0, 0, 0]) 2).1.lastExtremeValue =
       ([100, 100, 90, 100] : List ℚ).getD 2 0) := by
  constructor
  · have hf : (1 : ℚ) / 2 ≤ (ZState.mk 1 1 160 ([-1, 0, 0, 0] : List ℤ)
        ([0, 1, 0, 0] : List ℤ)).lastExtremeValue /
          ([100, 100, 100, 100] : List ℚ).getD 2 0 - 1 := by norm_num
    have h := (zigzag_reset_reads_new_index [100, 160, 100, 160] [100, 100, 100, 100]
      (1 / 2) (ZState.mk 1 1 160 [-1, 0, 0, 0] [0, 1, 0, 0]) 2).1 rfl hf
    exact ⟨rfl, hf, h.1, h.2⟩
  · have hf : (1 : ℚ) / 2 ≤ ([100, 100, 160, 100] : List ℚ).getD 2 0 /
        (ZState.mk (-1) 1 100 ([1, 0, 0, 0] : List ℤ)
          ([-1, 0, 0, 0] : List ℤ)).lastExtremeValue - 1 := by norm_num
    have h := (zigzag_reset_reads_new_index [100, 100, 160, 100] [100, 100, 90, 100]
      (1 / 2) (ZState.mk (-1) 1 100 [1, 0, 0, 0] [-1, 0, 0, 0]) 2).2 rfl hf
    exact ⟨rfl, hf, h.1, h.2⟩

/-- Counterexample to C4 as stated: on highs `[100, 90, 200, 50, 200]`, lows
`[100, 10, 10, 50, 60]` with epsilon 1/2 the output markers array is
`[1, -1, 0, -1, 0]`, whose nonzero entries `1, -1, -1` do not alternate in
sign in index order. -/
theorem zigzag_markers_alternation_cex :
    (calculate_zigzag [100, 90, 200, 50, 200] [100, 10, 10, 50, 60] (1 / 2)).1 =
      [1, -1, 0, -1, 0] ∧
    ¬ markersAlternate [1, -1, 0, -1, 0] := by
  constructor
  · norm_num [calculate_zigzag, zigzagRun, phaseA_def, preScan, candAfter_zero, initCand,
      stepCand, stepLow, stepHigh, List.range', List.replicate, List.set, mainLoop, mainStep]
  · intro h
    unfold markersAlternate at h
    rw [show ([1, -1, 0, -1, 0] : List ℤ).filter (fun v => v != 0) =
        ([1, -1, -1] : List ℤ) from by decide] at h
    rw [List.chain'_cons, List.chain'_cons] at h
    have h2 := h.2.1
    norm_num at h2

lemma preScan_some_dir (highs lows : List ℚ) (eps : ℚ) :
    ∀ (l : List ℕ) (s : PreState) (m t : List ℤ) (b : BreakInfo),
      (preScan highs lows eps l s m t).2 = some b →
      (b.direction = 1 ∧ b.ev.2 = -1) ∨ (b.direction = -1 ∧ b.ev.2 = 1) := by
  intro l
  induction l with
  | nil =>
    intro s m t b h
    exact absurd h (by simp [preScan])
  | cons i rest ih =>
    intro s m t b h
    rw [preScan_cons] at h
    split_ifs at h with h1 h2
    · have hb := Option.some_inj.mp h
      rw [← hb]
      exact Or.inl ⟨rfl, rfl⟩
    · have hb := Option.some_inj.mp h
      rw [← hb]
      exact Or.inr ⟨rfl, rfl⟩
    · exact ih (stepCand highs lows s i) m t b h

lemma AltFrom_chain :
    ∀ (l : List ℤ) (d : ℤ), (d = 1 ∨ d = -1) → AltFrom d l →
      List.Chain' (fun a b => a * b < 0) l := by
  intro l
  induction l with
  | nil =>
    intro d _ _
    exact List.chain'_nil
  | cons v rest ih =>
    intro d hd halt
    simp only [AltFrom] at halt
    obtain ⟨hv, hrest⟩ := halt
    cases rest with
    | nil => exact List.chain'_singleton v
    | cons w rest2 =>
      have hrest2 := hrest
      simp only [AltFrom] at hrest2
      obtain ⟨hw, _⟩ := hrest2
      rw [List.chain'_cons]
      constructor
      · rw [hv, hw]
        rcases hd with h | h <;> rw [h] <;> norm_num
      · refine ih (-d) ?_ hrest
        rcases hd with h | h
        · rw [h]
          exact Or.inr rfl
        · rw [h]
          exact Or.inl (by norm_num)

/-- Each main-loop step either leaves the direction unchanged and emits no
marker write, or confirms a reversal: from an uptrend it writes `1` at the old
extreme index and flips to `-1`; from a downtrend it writes `-1` and flips to
`1`. -/
lemma mainStep_dir_cases (highs lows : List ℚ) (eps : ℚ) (st : ZState) (i : ℕ) :
    ((mainStep highs lows eps st i).1.direction = st.direction ∧
     (mainStep highs lows eps st i).2 = none) ∨
    (st.direction = 1 ∧ (mainStep highs lows eps st i).1.direction = -1 ∧
     (mainStep highs lows eps st i).2 = some (st.lastExtremeIndex, 1)) ∨
    (st.direction = -1 ∧ (mainStep highs lows eps st i).1.direction = 1 ∧
     (mainStep highs lows eps st i).2 = some (st.lastExtremeIndex, -1)) := by
  simp only [mainStep]
  split_ifs with h1 h2 h3 h4 h5 h6 h7 <;>
    first
      | exact Or.inl ⟨rfl, rfl⟩
      | exact Or.inr (Or.inl ⟨by assumption, rfl, rfl⟩)
      | exact Or.inr (Or.inr ⟨by assumption, rfl, rfl⟩)

lemma mainLoop_alt (highs lows : List ℚ) (eps : ℚ) :
    ∀ (l : List ℕ) (st : ZState), st.direction = 1 ∨ st.direction = -1 →
      AltFrom st.direction ((mainLoop highs lows eps l st).2.map Prod.snd) := by
  intro l
  induction l with
  | nil =>
    intro st _
    simp only [mainLoop, List.map_nil]
    exact trivial
  | cons i rest ih =>
    intro st hd
    have hml : mainLoop highs lows eps (i :: rest) st =
        ((mainLoop highs lows eps rest (mainStep highs lows eps st i).1).1,
         match (mainStep highs lows eps st i).2 with
         | some e => e :: (mainLoop highs lows eps rest (mainStep highs lows eps st i).1).2
         | none => (mainLoop highs lows eps rest (mainStep highs lows eps st i).1).2) := rfl
    rcases mainStep_dir_cases highs lows eps st i with ⟨hdir, hnone⟩ | ⟨hd1, hdir, hsome⟩ |
      ⟨hd1, hdir, hsome⟩
    · rw [hml, hnone]
      have halt := ih (mainStep highs lows eps st i).1 (by rw [hdir]; exact hd)
      rw [hdir] at halt
      exact halt
    · rw [hml, hsome]
      simp only [List.map_cons]
      rw [hd1]
      have halt := ih (mainStep highs lows eps st i).1 (Or.inr hdir)
      rw [hdir] at halt
      exact ⟨rfl, halt⟩
    · rw [hml, hsome]
      simp only [List.map_cons]
      rw [hd1]
      have halt := ih (mainStep highs lows eps st i).1 (Or.inl hdir)
      rw [hdir] at halt
      exact ⟨rfl, halt⟩

/-- Amended C4: the chronological sequence of writes into the markers array
alternates in sign (the Phase-A write, then one write per confirmed reversal).
The dense markers array read in index order need not alternate, because a
later write can land at a smaller index or overwrite an earlier mark. -/
theorem zigzag_marker_events_alternate (highs lows : List ℚ) (eps : ℚ) :
    List.Chain' (fun a b => a * b < 0)
      ((zigzagRun highs lows eps).2.2.map Prod.snd) := by
  cases hp : phaseA highs lows eps with
  | mk mt ob =>
    obtain ⟨m, t⟩ := mt
    cases ob with
    | none => simp [zigzagRun, hp]
    | some b =>
      have hz : (zigzagRun highs lows eps).2.2 =
          b.ev :: (mainLoop highs lows eps
            (List.range' (b.i + 1) (highs.length - (b.i + 1)))
            (ZState.mk b.direction b.lastExtremeIndex b.lastExtremeValue m t)).2 := by
        simp [zigzagRun, hp]
      rw [hz]
      have hdir := preScan_some_dir highs lows eps
        (List.range' (0 + 1) (highs.length - 1)) (candAfter highs lows 0)
        (List.replicate highs.length 0) (List.replicate highs.length 0) b
        (by rw [← phaseA_def, hp])
      simp only [List.map_cons]
      rcases hdir with ⟨hd, hev⟩ | ⟨hd, hev⟩
      · refine AltFrom_chain _ (-1) (Or.inr rfl) ?_
        have halt : AltFrom b.direction
            ((mainLoop highs lows eps
              (List.range' (b.i + 1) (highs.length - (b.i + 1)))
              (ZState.mk b.direction b.lastExtremeIndex b.lastExtremeValue m t)).2.map
                Prod.snd) :=
          mainLoop_alt highs lows eps
            (List.range' (b.i + 1) (highs.length - (b.i + 1)))
            (ZState.mk b.direction b.lastExtremeIndex b.lastExtremeValue m t) (Or.inl hd)
        refine ⟨hev, ?_⟩
        have hneg : (-(-1) : ℤ) = (1 : ℤ) := by norm_num
        rw [hneg, ← hd]
        exact halt
      · refine AltFrom_chain _ 1 (Or.inl rfl) ?_
        have halt : AltFrom b.direction
            ((mainLoop highs lows eps
              (List.range' (b.i + 1) (highs.length - (b.i + 1)))
              (ZState.mk b.direction b.lastExtremeIndex b.lastExtremeValue m t)).2.map
                Prod.snd) :=
          mainLoop_alt highs lows eps
            (List.range' (b.i + 1) (highs.length - (b.i + 1)))
            (ZState.mk b.direction b.lastExtremeIndex b.lastExtremeValue m t) (Or.inr hd)
        refine ⟨hev, ?_⟩
        rw [← hd]
        exact halt

/-- Counterexample to C7 as stated: a call with `epsilon = -1 ≤ 0` is not
rejected (it returns normally, and even produces markers), and a call whose
lows contain the denominator value 0 is not rejected either — the code has no
epsilon-sign check and no zero-denominator guard. -/
theorem zigzag_no_domain_guard_cex :
    ((-1 : ℚ) ≤ 0 ∧
     calculate_zigzag_checked [100, 160] [100, 100] (-1) =
       Except.ok ([-1, 0], [0, 1])) ∧
    (([0, 0] : List ℚ).getD 0 0 = 0 ∧
     ∃ r, calculate_zigzag_checked [100, 160] [0, 0] (1 / 2) = Except.ok r) := by
  refine ⟨⟨by norm_num, ?_⟩, rfl, ⟨calculate_zigzag [100, 160] [0, 0] (1 / 2), ?_⟩⟩
  · norm_num [calculate_zigzag_checked, calculate_zigzag, zigzagRun, phaseA_def, preScan,
      candAfter_zero, initCand, stepCand, stepLow, stepHigh, List.range', List.replicate,
      List.set, mainLoop, mainStep]
  · unfold calculate_zigzag_checked
    rw [if_pos (show ([100, 160] : List ℚ).length = ([0, 0] : List ℚ).length from rfl)]

/-- Amended C7: the only inputs `calculate_zigzag` rejects are shape
mismatches (unequal lengths); every equal-length call — including calls with
`epsilon ≤ 0` or zero price values — proceeds through the raw ratio
computation and returns normally. -/
theorem zigzag_rejects_only_shape_mismatch (highs lows : List ℚ) (eps : ℚ) :
    (∃ r, calculate_zigzag_checked highs lows eps = Except.ok r) ↔
      highs.length = lows.length := by
  unfold calculate_zigzag_checked
  split_ifs with h
  · exact ⟨fun _ => h, fun _ => ⟨calculate_zigzag highs lows eps, rfl⟩⟩
  · constructor
    · rintro ⟨r, hr⟩
      exact absurd hr (by simp)
    · intro hlen
      exact absurd hlen h

/-- Witness for the amended C7: an equal-length call succeeds, a
mismatched-length call does not. -/
theorem zigzag_rejects_only_shape_mismatch_witness :
    (∃ r, calculate_zigzag_checked [100, 160] [100, 100] (1 / 2) = Except.ok r) ∧
    ¬ (∃ r, calculate_zigzag_checked [100] [100, 100] (1 / 2) = Except.ok r) := by
  constructor
  · exact (zigzag_rejects_only_shape_mismatch [100, 160] [100, 100] (1 / 2)).mpr rfl
  · intro hex
    have hlen := (zigzag_rejects_only_shape_mismatch [100] [100, 100] (1 / 2)).mp hex
    simp at hlen

/-- Unfolding equation for the trade-scan loop body. -/
lemma tradesLoop_cons (entry exitm : List ℤ) (i : ℕ) (rest : List ℕ) (cp : ℤ) :
    tradesLoop entry exitm (i :: rest) cp =
      if cp = 1 ∧ exitm.getD i 0 = 1 then
        ((tradesLoop entry exitm rest 0).1, i :: (tradesLoop entry exitm rest 0).2)
      else if cp = 0 ∧ entry.getD i 0 = 1 then
        (i :: (tradesLoop entry exitm rest 1).1, (tradesLoop entry exitm rest 1).2)
      else tradesLoop entry exitm rest cp := rfl

/-- Length bookkeeping of the scan: starting flat, exits never outnumber
entries and entries exceed exits by at most one; starting in position, the
mirror image holds. -/
lemma tradesLoop_len (entry exitm : List ℤ) :
    ∀ l : List ℕ,
      ((tradesLoop entry exitm l 0).2.length ≤ (tradesLoop entry exitm l 0).1.length ∧
       (tradesLoop entry exitm l 0).1.length ≤ (tradesLoop entry exitm l 0).2.length + 1) ∧
      ((tradesLoop entry exitm l 1).1.length ≤ (tradesLoop entry exitm l 1).2.length ∧
       (tradesLoop entry exitm l 1).2.length ≤ (tradesLoop entry exitm l 1).1.length + 1) := by
  intro l
  induction l with
  | nil => exact ⟨⟨Nat.le_refl 0, Nat.le_succ 0⟩, ⟨Nat.le_refl 0, Nat.le_succ 0⟩⟩
  | cons i rest ih =>
    obtain ⟨⟨h00, h01⟩, ⟨h10, h11⟩⟩ := ih
    constructor
    · rw [tradesLoop_cons]
      rw [if_neg (fun hcon => absurd hcon.1 (by decide))]
      by_cases he : entry.getD i 0 = 1
      · rw [if_pos ⟨rfl, he⟩]
        constructor
        · simp only [List.length_cons]
          omega
        · simp only [List.length_cons]
          omega
      · rw [if_neg (fun hcon => he hcon.2)]
        exact ⟨h00, h01⟩
    · rw [tradesLoop_cons]
      by_cases hx : exitm.getD i 0 = 1
      · rw [if_pos ⟨rfl, hx⟩]
        constructor
        · simp only [List.length_cons]
          omega
        · simp only [List.length_cons]
          omega
      · rw [if_neg (fun hcon => hx hcon.2)]
        rw [if_neg (fun hcon => absurd hcon.1 (by decide))]
        exact ⟨h10, h11⟩

/-- Claim C8: `enumerate_trades` returns equally long entry and exit lists,
and during the scan the exits never outnumber the entries (an exit is only
recorded while in position, which requires a prior recorded entry). -/
theorem trades_balanced (entry exitm : List ℤ) (skip_first : ℕ)
    (hlen : entry.length = exitm.length) (hskip : skip_first < entry.length) :
    (enumerate_trades entry exitm skip_first).1.length =
      (enumerate_trades entry exitm skip_first).2.length ∧
    (tradesLoop entry exitm (List.range' skip_first (entry.length - skip_first)) 0).2.length ≤
      (tradesLoop entry exitm (List.range' skip_first (entry.length - skip_first)) 0).1.length := by
  obtain ⟨⟨h00, h01⟩, _⟩ :=
    tradesLoop_len entry exitm (List.range' skip_first (entry.length - skip_first))
  refine ⟨?_, h00⟩
  simp only [enumerate_trades]
  split_ifs with h
  · simp only [List.length_append, List.length_cons, List.length_nil]
    omega
  · omega

/-- Witness for C8 on the spec's Scenario 1 input, where the trailing exit is
synthesized at index 5. -/
theorem trades_balanced_witness :
    (([0, 1, 0, 0, 1, 0] : List ℤ).length = ([0, 0, 1, 0, 0, 0] : List ℤ).length) ∧
    (0 < ([0, 1, 0, 0, 1, 0] : List ℤ).length) ∧
    enumerate_trades [0, 1, 0, 0, 1, 0] [0, 0, 1, 0, 0, 0] 0 = ([1, 4], [2, 5]) ∧
    (enumerate_trades [0, 1, 0, 0, 1, 0] [0, 0, 1, 0, 0, 0] 0).1.length =
      (enumerate_trades [0, 1, 0, 0, 1, 0] [0, 0, 1, 0, 0, 0] 0).2.length := by
  refine ⟨rfl, by decide, by decide,
    (trades_balanced [0, 1, 0, 0, 1, 0] [0, 0, 1, 0, 0, 0] 0 rfl (by decide)).1⟩

/-- Counterexample to C9 as stated: with entry mask `[1]`, exit mask `[0]` and
`skip_first = 0`, the entry fires at index 0 = N-1 and the synthesized exit is
also at index 0, so the matched pair has `exits[0] = entries[0]`, not
`exits[0] > entries[0]`. -/
theorem trades_exit_after_entry_cex :
    enumerate_trades [1] [0] 0 = ([0], [0]) ∧
    ¬ ((enumerate_trades [1] [0] 0).2.getD 0 0 >
        (enumerate_trades [1] [0] 0).1.getD 0 0) := by
  constructor
  · decide
  · decide

lemma getD_mem {α : Type} (l : List α) (k : ℕ) (d : α) (h : k < l.length) :
    l.getD k d ∈ l := by
  rw [List.getD_eq_getElem l d h]
  exact List.getElem_mem h

/-- Structural invariant of the trade scan over a strictly increasing index
list.  Starting flat: entries and exits are sublists of the scanned indices,
the k-th recorded entry precedes the k-th recorded exit, and when one entry is
unmatched it is the last recorded event, later than every recorded exit.
Starting in position the pairing is shifted by the leading unmatched exit. -/
lemma tradesLoop_inv (entry exitm : List ℤ) :
    ∀ l : List ℕ, l.Pairwise (· < ·) →
      (((tradesLoop entry exitm l 0).1.Sublist l) ∧
       ((tradesLoop entry exitm l 0).2.Sublist l) ∧
       (∀ k, k < (tradesLoop entry exitm l 0).2.length →
         (tradesLoop entry exitm l 0).1.getD k 0 <
           (tradesLoop entry exitm l 0).2.getD k 0) ∧
       ((tradesLoop entry exitm l 0).1.length =
           (tradesLoop entry exitm l 0).2.length + 1 →
         ∀ x ∈ (tradesLoop entry exitm l 0).2,
           x < (tradesLoop entry exitm l 0).1.getD
             ((tradesLoop entry exitm l 0).1.length - 1) 0)) ∧
      (((tradesLoop entry exitm l 1).1.Sublist l) ∧
       ((tradesLoop entry exitm l 1).2.Sublist l) ∧
       (∀ k, k + 1 < (tradesLoop entry exitm l 1).2.length →
         (tradesLoop entry exitm l 1).1.getD k 0 <
           (tradesLoop entry exitm l 1).2.getD (k + 1) 0) ∧
       ((tradesLoop entry exitm l 1).1.length =
           (tradesLoop entry exitm l 1).2.length ∧
           0 < (tradesLoop entry exitm l 1).1.length →
         ∀ x ∈ (tradesLoop entry exitm l 1).2,
           x < (tradesLoop entry exitm l 1).1.getD
             ((tradesLoop entry exitm l 1).1.length - 1) 0)) := by
  intro l
  induction l with
  | nil =>
    intro _
    refine ⟨⟨List.nil_sublist [], List.nil_sublist [], ?_, ?_⟩,
            ⟨List.nil_sublist [], List.nil_sublist [], ?_, ?_⟩⟩ <;>
      simp [tradesLoop]
  | cons i rest ih =>
    intro hpw
    rw [List.pairwise_cons] at hpw
    obtain ⟨hhead, hrest⟩ := hpw
    obtain ⟨⟨s01, s02, s0p, s0d⟩, ⟨s11, s12, s1p, s1d⟩⟩ := ih hrest
    constructor
    · rw [tradesLoop_cons]
      rw [if_neg (fun hcon => absurd hcon.1 (by decide))]
      by_cases he : entry.getD i 0 = 1
      · rw [if_pos ⟨rfl, he⟩]
        refine ⟨List.Sublist.cons₂ i s11, List.Sublist.cons i s12, ?_, ?_⟩
        · intro k hk
          cases k with
          | zero =>
            have hmem := getD_mem (tradesLoop entry exitm rest 1).2 0 0 hk
            exact hhead _ (s12.subset hmem)
          | succ k =>
            rw [List.getD_cons_succ]
            exact s1p k hk
        · intro hlen x hx
          simp only [List.length_cons] at hlen
          have hlen2 : (tradesLoop entry exitm rest 1).1.length =
              (tradesLoop entry exitm rest 1).2.length := by omega
          cases hlen0 : (tradesLoop entry exitm rest 1).1.length with
          | zero =>
            have h2 : (tradesLoop entry exitm rest 1).2 = [] :=
              List.length_eq_zero.mp (by omega)
            rw [h2] at hx
            exact absurd hx (List.not_mem_nil x)
          | succ n =>
            have hidx : (i :: (tradesLoop entry exitm rest 1).1).length - 1 = n + 1 := by
              simp only [List.length_cons]
              omega
            rw [hidx, List.getD_cons_succ]
            have := s1d ⟨hlen2, by omega⟩ x hx
            rw [hlen0] at this
            simpa using this
      · rw [if_neg (fun hcon => he hcon.2)]
        exact ⟨List.Sublist.cons i s01, List.Sublist.cons i s02, s0p, s0d⟩
    · rw [tradesLoop_cons]
      by_cases hx : exitm.getD i 0 = 1
      · rw [if_pos ⟨rfl, hx⟩]
        refine ⟨List.Sublist.cons i s01, List.Sublist.cons₂ i s02, ?_, ?_⟩
        · intro k hk
          simp only [List.length_cons] at hk
          rw [List.getD_cons_succ]
          exact s0p k (by omega)
        · intro hlen x hxm
          simp only [List.length_cons] at hlen
          have hlen1 : (tradesLoop entry exitm rest 0).1.length =
              (tradesLoop entry exitm rest 0).2.length + 1 := hlen.1
          have hdom := s0d hlen1
          rcases List.mem_cons.mp hxm with hxi | hxm2
          · subst hxi
            have hmem := getD_mem (tradesLoop entry exitm rest 0).1
              ((tradesLoop entry exitm rest 0).1.length - 1) 0 (by omega)
            exact hhead _ (s01.subset hmem)
          · exact hdom x hxm2
      · rw [if_neg (fun hcon => hx hcon.2)]
        rw [if_neg (fun hcon => absurd hcon.1 (by decide))]
        exact ⟨List.Sublist.cons i s11, List.Sublist.cons i s12, s1p, s1d⟩

/-- Amended C9: entries and exits are strictly increasing; every matched pair
except possibly the last satisfies `exits[k] > entries[k]`; every matched pair
(including a final pair completed by the synthesized exit at index N-1)
satisfies `exits[k] ≥ entries[k]`.  Equality is possible exactly when the last
entry fires at index N-1 and the exit is synthesized at the same index. -/
theorem trades_monotone_pairs (entry exitm : List ℤ) (skip_first : ℕ)
    (hlen : entry.length = exitm.length) (hskip : skip_first < entry.length) :
    (enumerate_trades entry exitm skip_first).1.Pairwise (· < ·) ∧
    (enumerate_trades entry exitm skip_first).2.Pairwise (· < ·) ∧
    (∀ k, k + 1 < (enumerate_trades entry exitm skip_first).1.length →
      (enumerate_trades entry exitm skip_first).1.getD k 0 <
        (enumerate_trades entry exitm skip_first).2.getD k 0) ∧
    (∀ k, k < (enumerate_trades entry exitm skip_first).1.length →
      (enumerate_trades entry exitm skip_first).1.getD k 0 ≤
        (enumerate_trades entry exitm skip_first).2.getD k 0) := by
  have hpw : (List.range' skip_first (entry.length - skip_first)).Pairwise (· < ·) :=
    List.pairwise_lt_range' skip_first (entry.length - skip_first)
  obtain ⟨⟨s01, s02, s0p, s0d⟩, _⟩ :=
    tradesLoop_inv entry exitm (List.range' skip_first (entry.length - skip_first)) hpw
  obtain ⟨⟨h00, h01⟩, _⟩ :=
    tradesLoop_len entry exitm (List.range' skip_first (entry.length - skip_first))
  have hub : ∀ x ∈ List.range' skip_first (entry.length - skip_first),
      x ≤ entry.length - 1 := by
    intro x hxm
    rw [List.mem_range'_1] at hxm
    omega
  simp only [enumerate_trades]
  set p := tradesLoop entry exitm (List.range' skip_first (entry.length - skip_first)) 0
    with hpdef
  split_ifs with hif
  · have hl1 : p.1.length = p.2.length + 1 := by omega
    have hdom := s0d hl1
    have hlast_le : p.1.getD (p.1.length - 1) 0 ≤ entry.length - 1 :=
      hub _ (s01.subset (getD_mem p.1 (p.1.length - 1) 0 (by omega)))
    refine ⟨?_, ?_, ?_, ?_⟩
    · exact List.Pairwise.sublist s01 hpw
    · rw [List.pairwise_append]
      refine ⟨List.Pairwise.sublist s02 hpw, List.pairwise_singleton _ _, ?_⟩
      intro a ha b hb
      rw [List.mem_singleton] at hb
      subst hb
      exact lt_of_lt_of_le (hdom a ha) hlast_le
    · intro k hk
      have hk1 : k + 1 < p.1.length := hk
      have hk2 : k < p.2.length := by omega
      rw [List.getD_append p.2 [entry.length - 1] 0 k hk2]
      exact s0p k hk2
    · intro k hk
      have hk1 : k < p.1.length := hk
      by_cases hk2 : k < p.2.length
      · rw [List.getD_append p.2 [entry.length - 1] 0 k hk2]
        exact le_of_lt (s0p k hk2)
      · have hkeq : k = p.2.length := by omega
        subst hkeq
        have hrhs : (p.2 ++ [entry.length - 1]).getD p.2.length 0 = entry.length - 1 := by
          rw [List.getD_eq_getElem?_getD, List.getElem?_append_right (Nat.le_refl _)]
          simp
        rw [hrhs]
        have hmem := getD_mem p.1 p.2.length 0 (by omega)
        have hle := hub _ (s01.subset hmem)
        have hidx : p.1.length - 1 = p.2.length := by omega
        rw [← hidx]
        rw [hidx]
        exact hle
  · have hleq : p.1.length = p.2.length := by omega
    refine ⟨List.Pairwise.sublist s01 hpw, List.Pairwise.sublist s02 hpw, ?_, ?_⟩
    · intro k hk
      exact s0p k (by omega)
    · intro k hk
      exact le_of_lt (s0p k (by omega))

/-- Witness for the amended C9 on the spec's Scenario 1 input. -/
theorem trades_monotone_pairs_witness :
    (([0, 1, 0, 0, 1, 0] : List ℤ).length = ([0, 0, 1, 0, 0, 0] : List ℤ).length) ∧
    (0 < ([0, 1, 0, 0, 1, 0] : List ℤ).length) ∧
    ((enumerate_trades [0, 1, 0, 0, 1, 0] [0, 0, 1, 0, 0, 0] 0).1.Pairwise (· < ·) ∧
     (enumerate_trades [0, 1, 0, 0, 1, 0] [0, 0, 1, 0, 0, 0] 0).2.Pairwise (· < ·) ∧
     (∀ k, k + 1 < (enumerate_trades [0, 1, 0, 0, 1, 0] [0, 0, 1, 0, 0, 0] 0).1.length →
       (enumerate_trades [0, 1, 0, 0, 1, 0] [0, 0, 1, 0, 0, 0] 0).1.getD k 0 <
         (enumerate_trades [0, 1, 0, 0, 1, 0] [0, 0, 1, 0, 0, 0] 0).2.getD k 0) ∧
     (∀ k, k < (enumerate_trades [0, 1, 0, 0, 1, 0] [0, 0, 1, 0, 0, 0] 0).1.length →
       (enumerate_trades [0, 1, 0, 0, 1, 0] [0, 0, 1, 0, 0, 0] 0).1.getD k 0 ≤
         (enumerate_trades [0, 1, 0, 0, 1, 0] [0, 0, 1, 0, 0, 0] 0).2.getD k 0)) := by
  exact ⟨rfl, by decide,
    trades_monotone_pairs [0, 1, 0, 0, 1, 0] [0, 0, 1, 0, 0, 0] 0 rfl (by decide)⟩

/-- The trade scan only inspects masks through the test "is this entry exactly
1", so two mask pairs that agree on that test everywhere produce identical
results. -/
lemma tradesLoop_congr (entry entry2 exitm exitm2 : List ℤ)
    (he : ∀ i, (entry2.getD i 0 = 1) ↔ (entry.getD i 0 = 1))
    (hx : ∀ i, (exitm2.getD i 0 = 1) ↔ (exitm.getD i 0 = 1)) :
    ∀ (l : List ℕ) (cp : ℤ),
      tradesLoop entry2 exitm2 l cp = tradesLoop entry exitm l cp := by
  intro l
  induction l with
  | nil =>
    intro cp
    rfl
  | cons i rest ih =>
    intro cp
    rw [tradesLoop_cons, tradesLoop_cons]
    by_cases h1 : cp = 1 ∧ exitm.getD i 0 = 1
    · rw [if_pos h1, if_pos ⟨h1.1, (hx i).mpr h1.2⟩, ih 0]
    · rw [if_neg h1, if_neg (fun hcon => h1 ⟨hcon.1, (hx i).mp hcon.2⟩)]
      by_cases h2 : cp = 0 ∧ entry.getD i 0 = 1
      · rw [if_pos h2, if_pos ⟨h2.1, (he i).mpr h2.2⟩, ih 1]
      · rw [if_neg h2, if_neg (fun hcon => h2 ⟨hcon.1, (he i).mp hcon.2⟩), ih cp]

lemma getD_set_eq_one_iff (l : List ℤ) (i j : ℕ) (v : ℤ) (hv : v ≠ 1) :
    ((l.set i v).getD j 0 = 1) ↔ ((l.set i 0).getD j 0 = 1) := by
  by_cases hij : i = j
  · subst hij
    by_cases hlt : i < l.length
    · rw [List.getD_eq_getElem?_getD, List.getD_eq_getElem?_getD,
        List.getElem?_set_self hlt, List.getElem?_set_self hlt]
      simp [hv]
    · rw [List.set_eq_of_length_le (by omega), List.set_eq_of_length_le (by omega)]
  · rw [List.getD_eq_getElem?_getD, List.getD_eq_getElem?_getD,
      List.getElem?_set_ne hij, List.getElem?_set_ne hij]

/-- Claim C10: a mask element different from 1 (for example 2 or -1) never
opens or closes a position — replacing it by 0 leaves the result of
`enumerate_trades` unchanged. -/
theorem trades_mask_exact_one (entry exitm : List ℤ) (skip_first i : ℕ) (v : ℤ)
    (hv : v ≠ 1) :
    enumerate_trades (entry.set i v) exitm skip_first =
      enumerate_trades (entry.set i 0) exitm skip_first ∧
    enumerate_trades entry (exitm.set i v) skip_first =
      enumerate_trades entry (exitm.set i 0) skip_first := by
  constructor
  · simp only [enumerate_trades, List.length_set]
    rw [tradesLoop_congr (entry.set i 0) (entry.set i v) exitm exitm
      (fun j => getD_set_eq_one_iff entry i j v hv) (fun j => Iff.rfl)
      (List.range' skip_first (entry.length - skip_first)) 0]
  · simp only [enumerate_trades]
    rw [tradesLoop_congr entry entry (exitm.set i 0) (exitm.set i v)
      (fun j => Iff.rfl) (fun j => getD_set_eq_one_iff exitm i j v hv)
      (List.range' skip_first (entry.length - skip_first)) 0]

/-- Witness for C10: at index 0, an entry-mask value 2 behaves like 0, and at
index 1 an exit-mask value 2 behaves like 0. -/
theorem trades_mask_exact_one_witness :
    ((2 : ℤ) ≠ 1) ∧
    enumerate_trades (([0, 1] : List ℤ).set 0 2) [0, 1] 0 =
      enumerate_trades (([0, 1] : List ℤ).set 0 0) [0, 1] 0 ∧
    enumerate_trades [1, 1] (([0, 1] : List ℤ).set 1 2) 0 =
      enumerate_trades [1, 1] (([0, 1] : List ℤ).set 1 0) 0 := by
  refine ⟨by decide, ?_, ?_⟩
  · exact (trades_mask_exact_one [0, 1] [0, 1] 0 0 2 (by decide)).1
  · exact (trades_mask_exact_one [1, 1] [0, 1] 0 1 2 (by decide)).2
